import Mathlib

/-!
Verification development for the codex-wakatime activity reporter.

The definitions below are a shallow embedding of the TypeScript sources:
the message extractor (`src/extractor.ts`), its path validation and
normalization helpers (Node.js posix `path` semantics), the turn
orchestrator (`main` in `src/index.ts`), and the rate limiter contract.

JavaScript regular-expression matching (`String.prototype.matchAll` with
the `g` flag) is embedded as an explicit backtracking matcher: a matcher
returns the list of possible (consumed characters, remaining input)
outcomes in the exact preference order the JS engine explores them, and a
scan takes, at each position, the first full match, then resumes after it.
-/

namespace CodexWakatime

/-- Characters written by code point to keep source free of quote and
backtick character literals. -/
def backtickChar : Char := Char.ofNat 96

/-- The double-quote character. -/
def dquoteChar : Char := Char.ofNat 34

/-- The single-quote character. -/
def squoteChar : Char := Char.ofNat 39

/-- JS regex `\w` (no `u` flag): ASCII letters, digits, underscore. -/
def jsWordChar (c : Char) : Bool := c.isAlphanum || c == '_'

/-- JS regex `\s` and the character set trimmed by `String.prototype.trim`:
tab, line feed, vertical tab, form feed, carriage return, space, NBSP,
Ogham space, the U+2000..U+200A range, line/paragraph separators, narrow
NBSP, medium mathematical space, ideographic space, BOM. -/
def jsSpaceChar (c : Char) : Bool :=
  decide (c ∈ ([' ', '\t', '\n', '\u000B', '\u000C', '\r', '\u00A0', '\u1680',
      '\u2028', '\u2029', '\u202F', '\u205F', '\u3000', '\uFEFF'] : List Char))
  || (decide (0x2000 ≤ c.toNat) && decide (c.toNat ≤ 0x200A))

/-- A backtracking matcher: the outcomes (consumed characters, rest) in the
preference order of the JS engine. -/
def Matcher : Type := List Char → List (List Char × List Char)

/-- Match nothing, consume nothing. -/
def mEps : Matcher := fun s => [([], s)]

/-- Match a single character satisfying `p` (a character class). -/
def mChar (p : Char → Bool) : Matcher := fun s =>
  match s with
  | [] => []
  | c :: cs => if p c then [([c], cs)] else []

/-- Sequential composition; outer alternatives are explored first, exactly
as a backtracking engine does. -/
def mSeq (m1 m2 : Matcher) : Matcher := fun s =>
  (m1 s).flatMap fun a => (m2 a.2).map fun b => (a.1 ++ b.1, b.2)

/-- Ordered alternation: all outcomes of `m1` are preferred to those of `m2`. -/
def mAlt (m1 m2 : Matcher) : Matcher := fun s => m1 s ++ m2 s

/-- Greedy `?`: try consuming first, then the empty alternative. -/
def mOpt (m : Matcher) : Matcher := fun s => m s ++ [([], s)]

/-- Case-sensitive literal. -/
def mStrLit : List Char → Matcher
  | [] => mEps
  | c :: cs => mSeq (mChar (fun x => x == c)) (mStrLit cs)

/-- Case-insensitive literal (the `i` flag; ASCII folding). -/
def mStrCI : List Char → Matcher
  | [] => mEps
  | c :: cs => mSeq (mChar (fun x => x.toLower == c.toLower)) (mStrCI cs)

/-- The list `n, n-1, ..., lo` (empty when `lo > n`): greedy preference
order for a counted repetition. -/
def descRange (n lo : Nat) : List Nat :=
  (List.range (n + 1 - lo)).map (fun i => n - i)

/-- Greedy repetition of a single-character class: `p\x7blo,hi\x7d` (with
`hi = none` for an unbounded `+` or `*`).  The alternatives are the
prefixes of the maximal run, longest first. -/
def mRepGreedy (p : Char → Bool) (lo : Nat) (hi : Option Nat) : Matcher := fun s =>
  let run := s.takeWhile p
  let n := match hi with
    | none => run.length
    | some h => min run.length h
  (descRange n lo).map (fun k => (run.take k, s.drop k))

/-- Match a pattern of shape `pre (capture) post` at the start of the
input: the first success in backtracking order, returning the capture and
the input remaining after the whole match. -/
def matchCapAt (pre cap post : Matcher) (s : List Char) :
    Option (List Char × List Char) :=
  ((pre s).flatMap fun a =>
    (cap a.2).flatMap fun b =>
      (post b.2).map fun c => (b.1, c.2)).head?

/-- One `matchAll` scan: at each position try the matcher; on success emit
the capture and resume after the match, otherwise advance one character.
`fuel` (structurally) bounds the recursion; it is instantiated with the
input length. -/
def scanFrom (m : List Char → Option (List Char × List Char)) :
    Nat → List Char → List String
  | 0, _ => []
  | _ + 1, [] => []
  | fuel + 1, c :: cs =>
    match m (c :: cs) with
    | some (cap, rest) =>
      if rest.length < cs.length + 1 then String.mk cap :: scanFrom m fuel rest
      else String.mk cap :: scanFrom m fuel cs
    | none => scanFrom m fuel cs

/-- All captures of `message.matchAll(pattern)`, in order. -/
def scanMatches (m : List Char → Option (List Char × List Char))
    (msg : String) : List String :=
  scanFrom m msg.data.length msg.data

/-! The five regular expressions of `src/extractor.ts`. -/

/-- Shared capture shape `([body]+\.\w\x7b1,6\x7d)`: a path body followed
by a dot and a 1-6 word-character extension. -/
def pathTailCap (body : Char → Bool) : Matcher :=
  mSeq (mRepGreedy body 1 none)
    (mSeq (mChar (fun c => c == '.')) (mRepGreedy jsWordChar 1 (some 6)))

/-- Code block headers: three backticks, `\w*`, a colon, capturing
`([^\n` + backtick + `]+)`. -/
def matchBlockAt : List Char → Option (List Char × List Char) :=
  matchCapAt
    (mSeq (mStrLit [backtickChar, backtickChar, backtickChar])
      (mSeq (mRepGreedy jsWordChar 0 none) (mChar (fun c => c == ':'))))
    (mRepGreedy (fun c => !(c == '\n') && !(c == backtickChar)) 1 none)
    mEps

/-- Backtick paths with extension: a backtick, the path capture with body
class excluding backticks and whitespace, a closing backtick. -/
def matchTickAt : List Char → Option (List Char × List Char) :=
  matchCapAt (mChar (fun c => c == backtickChar))
    (pathTailCap (fun c => !(c == backtickChar) && !(jsSpaceChar c)))
    (mChar (fun c => c == backtickChar))

/-- Is `c` a single or double quote? -/
def quoteChar (c : Char) : Bool := c == dquoteChar || c == squoteChar

/-- File path in quotes: either quote character on both sides, body class
excluding quotes and whitespace. -/
def matchQuoteAt : List Char → Option (List Char × List Char) :=
  matchCapAt (mChar quoteChar)
    (pathTailCap (fun c => !(c == dquoteChar) && !(c == squoteChar) && !(jsSpaceChar c)))
    (mChar quoteChar)

/-- Read action verbs, in source alternation order. -/
def readVerbs : List (List Char) := ["Read".data, "List".data]

/-- Write action verbs, in source alternation order. -/
def writeVerbs : List (List Char) :=
  ["Create".data, "Created".data, "Modify".data, "Modified".data,
   "Update".data, "Updated".data, "Write".data, "Wrote".data,
   "Edit".data, "Edited".data, "Delete".data, "Deleted".data]

/-- The legacy combined alternation `Read|List|Create|...|Deleted`. -/
def legacyVerbs : List (List Char) := readVerbs ++ writeVerbs

/-- Ordered alternation over a verb list (case-insensitive). -/
def mVerbs : List (List Char) → Matcher
  | [] => fun _ => []
  | v :: vs => mAlt (mStrCI v) (mVerbs vs)

/-- Matcher for the part preceding the capture of an action pattern:
verb, `\s+`, optional backtick. -/
def verbPre (vs : List (List Char)) : Matcher :=
  mSeq (mVerbs vs)
    (mSeq (mRepGreedy jsSpaceChar 1 none) (mOpt (mChar (fun c => c == backtickChar))))

/-- The action-pattern capture `([^\s` + backtick + `\n]+\.\w\x7b1,6\x7d)`. -/
def verbCap : Matcher :=
  pathTailCap (fun c => !(jsSpaceChar c) && !(c == backtickChar) && !(c == '\n'))

/-- The optional closing backtick after an action-pattern capture. -/
def verbPost : Matcher := mOpt (mChar (fun c => c == backtickChar))

/-- `READ_PATTERNS[3]`: `(?:Read|List)\s+` etc. -/
def matchReadVerbAt : List Char → Option (List Char × List Char) :=
  matchCapAt (verbPre readVerbs) verbCap verbPost

/-- `WRITE_PATTERN`: `(?:Create|Created|...|Deleted)\s+` etc. -/
def matchWriteVerbAt : List Char → Option (List Char × List Char) :=
  matchCapAt (verbPre writeVerbs) verbCap verbPost

/-- `PATTERNS[2]`: the legacy combined action pattern. -/
def matchLegacyVerbAt : List Char → Option (List Char × List Char) :=
  matchCapAt (verbPre legacyVerbs) verbCap verbPost

/-- `READ_PATTERNS`, in source order: code block headers, backtick paths,
quoted paths, read action patterns. -/
def READ_MATCHERS : List (List Char → Option (List Char × List Char)) :=
  [matchBlockAt, matchTickAt, matchQuoteAt, matchReadVerbAt]

/-- Legacy `PATTERNS`, in source order: code block headers, backtick
paths, combined action patterns, quoted paths. -/
def LEGACY_MATCHERS : List (List Char → Option (List Char × List Char)) :=
  [matchBlockAt, matchTickAt, matchLegacyVerbAt, matchQuoteAt]

/-! Node.js `path` (posix) primitives used by the extractor. -/

/-- `path.isAbsolute` (posix): nonempty and starting with a slash. -/
def pathIsAbsolute (p : String) : Bool := p.data.head? == some '/'

/-- Split a character list on slashes (consecutive slashes give empty
segments, as in the Node implementation). -/
def splitOnSlash : List Char → List (List Char)
  | [] => [[]]
  | c :: cs =>
    let r := splitOnSlash cs
    if c == '/' then [] :: r
    else
      match r with
      | [] => [[c]]
      | h :: t => (c :: h) :: t

/-- The segment resolution of Node `normalizeString`: drop empty and `.`
segments; `..` pops the previous segment, except that above the root it is
kept for relative paths (`allowAboveRoot`) and dropped for absolute ones. -/
def resolveSegs (allowAboveRoot : Bool) (acc : List (List Char)) :
    List (List Char) → List (List Char)
  | [] => acc
  | seg :: rest =>
    if seg == [] || seg == ['.'] then resolveSegs allowAboveRoot acc rest
    else if seg == ['.', '.'] then
      if acc ≠ [] ∧ acc.getLast? ≠ some ['.', '.'] then
        resolveSegs allowAboveRoot acc.dropLast rest
      else if allowAboveRoot then
        resolveSegs allowAboveRoot (acc ++ [['.', '.']]) rest
      else resolveSegs allowAboveRoot acc rest
    else resolveSegs allowAboveRoot (acc ++ [seg]) rest

/-- `path.normalize` (posix): resolve `.`/`..` segments and repeated
slashes, preserving a trailing slash, with the Node edge cases for the
empty result. -/
def pathNormalize (p : String) : String :=
  if p.length == 0 then "."
  else
    let abs := p.data.head? == some '/'
    let trailingSep := p.data.getLast? == some '/'
    let segs := resolveSegs (!abs) [] (splitOnSlash p.data)
    let body := List.intercalate ['/'] segs
    if body == [] then
      if abs then "/" else if trailingSep then "./" else "."
    else
      let body2 := if trailingSep then body ++ ['/'] else body
      if abs then String.mk ('/' :: body2) else String.mk body2

/-- `path.join(a, b)` (posix): concatenate the nonempty arguments with a
slash and normalize; `.` when both are empty. -/
def pathJoin (a b : String) : String :=
  let parts := [a, b].filter (fun s => s.length > 0)
  if parts == [] then "." else pathNormalize (String.intercalate "/" parts)

/-- The final nonempty slash-separated component of a path, ignoring
trailing slashes (empty for the root or the empty path). -/
def lastComponent (p : String) : List Char :=
  let r := p.data.reverse.dropWhile (fun c => c == '/')
  (r.takeWhile (fun c => !(c == '/'))).reverse

/-- `path.basename` (posix). -/
def pathBasename (p : String) : String := String.mk (lastComponent p)

/-- Index of the last dot of a character list, if any. -/
def lastDotIdx (base : List Char) : Option Nat :=
  match base.reverse.findIdx? (fun c => c == '.') with
  | none => none
  | some i => some (base.length - 1 - i)

/-- `path.extname` (posix): the suffix of the basename from its last dot,
except that a lone leading dot (`.bashrc`) and the component `..` have no
extension. -/
def extname (p : String) : String :=
  let base := lastComponent p
  match lastDotIdx base with
  | none => ""
  | some 0 => ""
  | some d => if base == ['.', '.'] then "" else String.mk (base.drop d)

/-- Does `hay` start with `needle`? (`String.prototype.startsWith`). -/
def startsWithSeq : List Char → List Char → Bool
  | [], _ => true
  | _ :: _, [] => false
  | a :: as, b :: bs => a == b && startsWithSeq as bs

/-- Does `needle` occur as a contiguous substring of `hay`?
(`String.prototype.includes`). -/
def hasSubseq (needle : List Char) : List Char → Bool
  | [] => startsWithSeq needle []
  | c :: cs => startsWithSeq needle (c :: cs) || hasSubseq needle cs

/-! `src/extractor.ts`: validation, normalization, extraction. -/

/-- The lower-cased extension without its dot:
`path.extname(p).slice(1).toLowerCase()` (ASCII case folding). -/
def jsExtLower (p : String) : String :=
  String.mk (((extname p).data.drop 1).map Char.toLower)

/-- `isValidFilePath` from `src/extractor.ts`: nonempty, not a URL, no
`<>|?*` character, and a nonempty extension of at most 6 characters. -/
def isValidFilePath (p : String) : Bool :=
  if p.length == 0 then false
  else if startsWithSeq "http://".data p.data
      || startsWithSeq "https://".data p.data
      || hasSubseq "://".data p.data then false
  else if p.data.any (fun c => c == '<' || c == '>' || c == '|' || c == '?' || c == '*') then
    false
  else
    let ext := jsExtLower p
    if ext.length == 0 then false
    else if ext.length > 6 then false
    else true

/-- `String.prototype.trim`. -/
def jsTrim (s : String) : String :=
  String.mk (((s.data.dropWhile jsSpaceChar).reverse.dropWhile jsSpaceChar).reverse)

/-- `normalizePath` from `src/extractor.ts`: trim, then either normalize
the absolute path or resolve it against `cwd`. -/
def normalizePath (filePath cwd : String) : String :=
  let cleaned := jsTrim filePath
  if pathIsAbsolute cleaned then pathNormalize cleaned
  else pathNormalize (pathJoin cwd cleaned)

/-- One record of the extraction result (`ExtractedFile` in `types.ts`). -/
structure ExtractedFile where
  path : String
  isWrite : Bool
deriving DecidableEq, Repr

/-- The guard-and-normalize step shared by every pattern loop: the
normalized path when the raw capture is truthy and valid, else `none`. -/
def validNorm (cwd fp : String) : Option String :=
  if fp.length != 0 && isValidFilePath fp then some (normalizePath fp cwd) else none

/-- Does the insertion-ordered map (a JS `Map` as an association list)
hold key `k`? -/
def mapHas (m : List (String × Bool)) (k : String) : Bool :=
  m.any (fun kv => kv.1 == k)

/-- JS `Map.set`: update in place when present, append otherwise. -/
def mapSet (m : List (String × Bool)) (k : String) (v : Bool) :
    List (String × Bool) :=
  if mapHas m k then m.map (fun kv => if kv.1 == k then (k, v) else kv)
  else m ++ [(k, v)]

/-- The write-pass loop body of `extractFiles`: mark every valid capture
as a write. -/
def writeAcc (cwd : String) (m : List (String × Bool)) (fp : String) :
    List (String × Bool) :=
  if fp.length != 0 && isValidFilePath fp then mapSet m (normalizePath fp cwd) true
  else m

/-- The read-pass loop body of `extractFiles`: record a valid capture as a
read only when its path is not present yet. -/
def readAcc (cwd : String) (m : List (String × Bool)) (fp : String) :
    List (String × Bool) :=
  if fp.length != 0 && isValidFilePath fp then
    let n := normalizePath fp cwd
    if mapHas m n then m else mapSet m n false
  else m

/-- `extractFiles(message, cwd)` from `src/extractor.ts`.  The message is
`Option String` so that a JS `null`/`undefined` (falsy, like the empty
string) is representable. -/
def extractFiles (message : Option String) (cwd : String) : List ExtractedFile :=
  match message with
  | none => []
  | some msg =>
    if msg.length == 0 then []
    else
      let m1 := (scanMatches matchWriteVerbAt msg).foldl (writeAcc cwd) []
      let m2 := READ_MATCHERS.foldl
        (fun m pat => (scanMatches pat msg).foldl (readAcc cwd) m) m1
      m2.map (fun kv => ExtractedFile.mk kv.1 kv.2)

/-- The loop body of `extractFilePaths`: insertion into a JS `Set`. -/
def setAcc (cwd : String) (acc : List String) (fp : String) : List String :=
  if fp.length != 0 && isValidFilePath fp then
    let n := normalizePath fp cwd
    if acc.contains n then acc else acc ++ [n]
  else acc

/-- The legacy `extractFilePaths(message, cwd)` from `src/extractor.ts`. -/
def extractFilePaths (message : Option String) (cwd : String) : List String :=
  match message with
  | none => []
  | some msg =>
    if msg.length == 0 then []
    else
      LEGACY_MATCHERS.foldl (fun acc pat => (scanMatches pat msg).foldl (setAcc cwd) acc) []

/-! Path lists per signal class, and the first-occurrence view of the
insertion-ordered collections. -/

/-- The normalized valid paths produced by the write pass, in match order. -/
def writePaths (msg cwd : String) : List String :=
  (scanMatches matchWriteVerbAt msg).filterMap (validNorm cwd)

/-- The normalized valid paths produced by the read pass (all four read
signal classes, in source order), in match order. -/
def readPaths (msg cwd : String) : List String :=
  READ_MATCHERS.flatMap (fun pat => (scanMatches pat msg).filterMap (validNorm cwd))

/-- The normalized valid paths produced by the legacy combined patterns,
in match order. -/
def legacyPaths (msg cwd : String) : List String :=
  LEGACY_MATCHERS.flatMap (fun pat => (scanMatches pat msg).filterMap (validNorm cwd))

/-- First occurrences of `ps` whose key is not already in `ks`, in order:
the list of keys a pass appends to an insertion-ordered collection whose
key set is `ks`. -/
def newKeys (ks : List String) : List String → List String
  | [] => []
  | p :: ps => if p ∈ ks then newKeys ks ps else p :: newKeys (ks ++ [p]) ps

/-- Membership in `newKeys`: seen in the input and not already a key. -/
theorem mem_newKeys : ∀ (ps ks : List String) (x : String),
    x ∈ newKeys ks ps ↔ (x ∈ ps ∧ x ∉ ks) := by
  intro ps
  induction ps with
  | nil => simp [newKeys]
  | cons p ps ih =>
    intro ks x
    simp only [newKeys]
    split
    · rename_i hp
      rw [ih]
      by_cases hxp : x = p
      · subst hxp
        simp [hp]
      · simp [hxp]
    · rename_i hp
      rw [List.mem_cons, ih]
      by_cases hxp : x = p
      · subst hxp
        simp [hp]
      · simp [hxp]

/-- Appending the new keys to the existing ones keeps the keys distinct. -/
theorem nodup_append_newKeys : ∀ (ps ks : List String), ks.Nodup →
    (ks ++ newKeys ks ps).Nodup := by
  intro ps
  induction ps with
  | nil => intro ks h; simpa [newKeys]
  | cons p ps ih =>
    intro ks h
    simp only [newKeys]
    split
    · exact ih ks h
    · rename_i hp
      have h2 : (ks ++ [p]).Nodup := by
        simp [List.nodup_append, h, hp]
      have h3 := ih (ks ++ [p]) h2
      simpa [List.append_assoc] using h3

/-- The first-occurrence collapse of a whole list has distinct entries. -/
theorem nodup_newKeys_nil (ps : List String) : (newKeys [] ps).Nodup := by
  simpa using nodup_append_newKeys ps [] List.nodup_nil

/-- Processing a concatenation in one pass equals processing its parts in
sequence. -/
theorem newKeys_append : ∀ (ps qs ks : List String),
    newKeys ks (ps ++ qs) = newKeys ks ps ++ newKeys (ks ++ newKeys ks ps) qs := by
  intro ps
  induction ps with
  | nil => intro qs ks; simp [newKeys]
  | cons p ps ih =>
    intro qs ks
    rw [List.cons_append]
    simp only [newKeys, List.append_eq]
    split
    · exact ih qs ks
    · rw [ih qs (ks ++ [p])]
      simp [List.append_assoc]

/-! Lemmas about the insertion-ordered map. -/

/-- `mapHas` is key membership. -/
theorem mapHas_iff (m : List (String × Bool)) (k : String) :
    mapHas m k = true ↔ k ∈ m.map Prod.fst := by
  simp only [mapHas, List.any_eq_true, List.mem_map, beq_iff_eq]

/-- Re-marking a present key as a write leaves an all-write map unchanged. -/
theorem mapSet_eq_self (m : List (String × Bool)) (n : String)
    (hall : ∀ kv ∈ m, kv.2 = true) (h : mapHas m n = true) :
    mapSet m n true = m := by
  simp only [mapSet, h, if_true]
  have : ∀ kv ∈ m, (if kv.1 == n then (n, true) else kv) = kv := by
    intro kv hkv
    by_cases hk : kv.1 = n
    · simp only [hk, beq_self_eq_true, if_true]
      exact Prod.ext hk.symm (hall kv hkv).symm
    · simp [hk]
  rw [List.map_congr_left this]
  simp

/-- Setting an absent key appends it. -/
theorem mapSet_of_not_has (m : List (String × Bool)) (n : String) (v : Bool)
    (h : mapHas m n = false) : mapSet m n v = m ++ [(n, v)] := by
  simp [mapSet, h]

/-! Characterizations of the three pattern-loop bodies. -/

/-- The write-pass body through the `validNorm` view. -/
theorem writeAcc_eq (cwd : String) (m : List (String × Bool)) (fp : String) :
    writeAcc cwd m fp = match validNorm cwd fp with
      | none => m
      | some n => mapSet m n true := by
  by_cases h : (fp.length != 0 && isValidFilePath fp) = true
  · simp [writeAcc, validNorm, h]
  · simp [writeAcc, validNorm, h]

/-- The read-pass body through the `validNorm` view. -/
theorem readAcc_eq (cwd : String) (m : List (String × Bool)) (fp : String) :
    readAcc cwd m fp = match validNorm cwd fp with
      | none => m
      | some n => if mapHas m n then m else m ++ [(n, false)] := by
  by_cases h : (fp.length != 0 && isValidFilePath fp) = true
  · simp only [readAcc, validNorm, h, if_true]
    by_cases hn : mapHas m (normalizePath fp cwd) = true
    · simp [hn]
    · simp only [Bool.not_eq_true] at hn
      simp [hn, mapSet_of_not_has m _ false hn]
  · simp [readAcc, validNorm, h]

/-- The legacy set-insertion body through the `validNorm` view. -/
theorem setAcc_eq (cwd : String) (acc : List String) (fp : String) :
    setAcc cwd acc fp = match validNorm cwd fp with
      | none => acc
      | some n => if n ∈ acc then acc else acc ++ [n] := by
  by_cases h : (fp.length != 0 && isValidFilePath fp) = true
  · simp only [setAcc, validNorm, h, if_true]
    by_cases hn : normalizePath fp cwd ∈ acc
    · simp [hn]
    · simp [hn]
  · simp [setAcc, validNorm, h]

/-! The three pattern loops, folded into first-occurrence views. -/

/-- A write-pass loop over one capture list, on an all-write map. -/
theorem foldl_writeAcc (cwd : String) : ∀ (caps : List String) (m : List (String × Bool)),
    (∀ kv ∈ m, kv.2 = true) →
    caps.foldl (writeAcc cwd) m =
      m ++ (newKeys (m.map Prod.fst) (caps.filterMap (validNorm cwd))).map
        (fun p => (p, true)) := by
  intro caps
  induction caps with
  | nil => intro m hall; simp [newKeys]
  | cons cap caps ih =>
    intro m hall
    cases hv : validNorm cwd cap with
    | none =>
      simp only [List.foldl_cons, List.filterMap_cons, writeAcc_eq, hv]
      exact ih m hall
    | some n =>
      simp only [List.foldl_cons, List.filterMap_cons, writeAcc_eq, hv]
      by_cases hn : mapHas m n = true
      · have hk : n ∈ m.map Prod.fst := (mapHas_iff m n).1 hn
        rw [mapSet_eq_self m n hall hn, ih m hall]
        simp [newKeys, hk]
      · simp only [Bool.not_eq_true] at hn
        have hk : n ∉ m.map Prod.fst := by
          rw [← mapHas_iff, hn]
          simp
        rw [mapSet_of_not_has m n true hn]
        have hall2 : ∀ kv ∈ m ++ [(n, true)], kv.2 = true := by
          intro kv hkv
          rcases List.mem_append.1 hkv with h1 | h1
          · exact hall kv h1
          · simp at h1
            simp [h1]
        rw [ih (m ++ [(n, true)]) hall2]
        simp [newKeys, hk, List.append_assoc]

/-- A read-pass loop over one capture list. -/
theorem foldl_readAcc (cwd : String) : ∀ (caps : List String) (m : List (String × Bool)),
    caps.foldl (readAcc cwd) m =
      m ++ (newKeys (m.map Prod.fst) (caps.filterMap (validNorm cwd))).map
        (fun p => (p, false)) := by
  intro caps
  induction caps with
  | nil => intro m; simp [newKeys]
  | cons cap caps ih =>
    intro m
    cases hv : validNorm cwd cap with
    | none =>
      simp only [List.foldl_cons, List.filterMap_cons, readAcc_eq, hv]
      exact ih m
    | some n =>
      simp only [List.foldl_cons, List.filterMap_cons, readAcc_eq, hv]
      by_cases hn : mapHas m n = true
      · have hk : n ∈ m.map Prod.fst := (mapHas_iff m n).1 hn
        rw [if_pos hn, ih m]
        simp [newKeys, hk]
      · have hk : n ∉ m.map Prod.fst := by
          rw [← mapHas_iff]
          simp [hn]
        rw [if_neg hn, ih (m ++ [(n, false)])]
        simp [newKeys, hk, List.append_assoc]

/-- A legacy set-insertion loop over one capture list. -/
theorem foldl_setAcc (cwd : String) : ∀ (caps : List String) (acc : List String),
    caps.foldl (setAcc cwd) acc = acc ++ newKeys acc (caps.filterMap (validNorm cwd)) := by
  intro caps
  induction caps with
  | nil => intro acc; simp [newKeys]
  | cons cap caps ih =>
    intro acc
    cases hv : validNorm cwd cap with
    | none =>
      simp only [List.foldl_cons, List.filterMap_cons, setAcc_eq, hv]
      exact ih acc
    | some n =>
      simp only [List.foldl_cons, List.filterMap_cons, setAcc_eq, hv]
      by_cases hn : n ∈ acc
      · rw [if_pos hn, ih acc]
        simp [newKeys, hn]
      · rw [if_neg hn, ih (acc ++ [n])]
        simp [newKeys, hn, List.append_assoc]

/-- Keys of a constant-flag pairing, composed form. -/
theorem map_fst_pair (b : Bool) : ∀ (l : List String),
    l.map (Prod.fst ∘ fun p => (p, b)) = l := by
  intro l
  induction l with
  | nil => rfl
  | cons a l ih => simp [ih]

/-- Record construction after a constant-flag pairing, composed form. -/
theorem map_mk_pair (b : Bool) (l : List String) :
    l.map ((fun kv : String × Bool => ExtractedFile.mk kv.1 kv.2) ∘ fun p => (p, b))
      = l.map (fun p => ExtractedFile.mk p b) := by
  simp [Function.comp]

/-- The whole read pass, over a list of patterns. -/
theorem foldl_readAcc_pats (cwd msg : String) :
    ∀ (pats : List (List Char → Option (List Char × List Char)))
      (m : List (String × Bool)),
    pats.foldl (fun m pat => (scanMatches pat msg).foldl (readAcc cwd) m) m =
      m ++ (newKeys (m.map Prod.fst)
        (pats.flatMap (fun pat => (scanMatches pat msg).filterMap (validNorm cwd)))).map
        (fun p => (p, false)) := by
  intro pats
  induction pats with
  | nil => intro m; simp [newKeys]
  | cons pat pats ih =>
    intro m
    simp only [List.foldl_cons, List.flatMap_cons]
    rw [foldl_readAcc, ih, newKeys_append]
    simp [List.map_append, List.map_map, List.append_assoc, map_fst_pair]

/-- The whole legacy pass, over a list of patterns. -/
theorem foldl_setAcc_pats (cwd msg : String) :
    ∀ (pats : List (List Char → Option (List Char × List Char)))
      (acc : List String),
    pats.foldl (fun acc pat => (scanMatches pat msg).foldl (setAcc cwd) acc) acc =
      acc ++ newKeys acc
        (pats.flatMap (fun pat => (scanMatches pat msg).filterMap (validNorm cwd))) := by
  intro pats
  induction pats with
  | nil => intro acc; simp [newKeys]
  | cons pat pats ih =>
    intro acc
    simp only [List.foldl_cons, List.flatMap_cons]
    rw [foldl_setAcc, ih, newKeys_append]
    simp [List.append_assoc]

/-- An empty message produces no captures. -/
theorem scanMatches_empty (m : List Char → Option (List Char × List Char))
    (msg : String) (h : msg.data = []) : scanMatches m msg = [] := by
  simp [scanMatches, h, scanFrom]

/-- Structure theorem for `extractFiles`: first the write-pass paths,
first occurrence each, all marked write; then the read-pass paths not
already recorded, first occurrence each, all marked read. -/
theorem extractFiles_decomp (msg cwd : String) :
    extractFiles (some msg) cwd =
      (newKeys [] (writePaths msg cwd)).map (fun p => ExtractedFile.mk p true)
      ++ (newKeys (newKeys [] (writePaths msg cwd)) (readPaths msg cwd)).map
          (fun p => ExtractedFile.mk p false) := by
  by_cases hm : msg.length = 0
  · have hd : msg.data = [] := by
      rw [← List.length_eq_zero]
      exact hm
    have h1 : writePaths msg cwd = [] := by
      simp [writePaths, scanMatches_empty _ _ hd]
    have h2 : readPaths msg cwd = [] := by
      simp [readPaths, scanMatches_empty _ _ hd]
    simp [extractFiles, hm, h1, h2, newKeys]
  · have hm2 : (msg.length == 0) = false := by
      simp [hm]
    simp only [extractFiles, hm2, Bool.false_eq_true, if_false]
    rw [foldl_writeAcc cwd _ [] (by simp)]
    simp only [READ_MATCHERS]
    rw [foldl_readAcc_pats cwd msg]
    simp [writePaths, readPaths, READ_MATCHERS, List.map_map, List.map_append,
      map_fst_pair, map_mk_pair, List.nil_append]

/-- Structure theorem for `extractFilePaths`: the first occurrences of
the legacy-pattern paths, in match order. -/
theorem extractFilePaths_decomp (msg cwd : String) :
    extractFilePaths (some msg) cwd = newKeys [] (legacyPaths msg cwd) := by
  by_cases hm : msg.length = 0
  · have hd : msg.data = [] := by
      rw [← List.length_eq_zero]
      exact hm
    have h1 : legacyPaths msg cwd = [] := by
      simp [legacyPaths, scanMatches_empty _ _ hd]
    simp [extractFilePaths, hm, h1, newKeys]
  · have hm2 : (msg.length == 0) = false := by
      simp [hm]
    simp only [extractFilePaths, hm2, Bool.false_eq_true, if_false]
    rw [foldl_setAcc_pats cwd msg]
    simp [legacyPaths]

/-! Helpers for filtering the extraction result by path. -/

/-- Filtering after mapping. -/
theorem filter_over_map {α β : Type} (f : α → β) (q : β → Bool) :
    ∀ (l : List α), (l.map f).filter q = (l.filter (fun a => q (f a))).map f := by
  intro l
  induction l with
  | nil => rfl
  | cons a l ih =>
    by_cases h : q (f a) = true
    · simp [h, ih]
    · simp only [Bool.not_eq_true] at h
      simp [h, ih]

/-- In a duplicate-free list, filtering for a member leaves exactly it. -/
theorem filter_eq_single (p : String) : ∀ (l : List String), l.Nodup → p ∈ l →
    l.filter (fun x => x == p) = [p] := by
  intro l
  induction l with
  | nil => simp
  | cons a l ih =>
    intro hnd hm
    rcases List.nodup_cons.1 hnd with ⟨ha, hl⟩
    by_cases hap : a = p
    · subst hap
      have : l.filter (fun x => x == a) = [] := by
        apply List.filter_eq_nil_iff.2
        intro x hx
        simp only [beq_iff_eq]
        intro hxa
        exact ha (hxa ▸ hx)
      simp [this]
    · have hpl : p ∈ l := by
        rcases List.mem_cons.1 hm with h | h
        · exact absurd h.symm hap
        · exact h
      have : (a == p) = false := by
        simp [hap]
      simp [this, ih hl hpl]

/-- Filtering for a non-member gives nothing. -/
theorem filter_eq_nil_of_not_mem (p : String) (l : List String) (h : p ∉ l) :
    l.filter (fun x => x == p) = [] := by
  apply List.filter_eq_nil_iff.2
  intro x hx
  simp only [beq_iff_eq]
  intro hxp
  exact h (hxp ▸ hx)

/-- Paths after record construction, composed form. -/
theorem map_path_pair (b : Bool) : ∀ (l : List String),
    l.map (ExtractedFile.path ∘ fun p => ExtractedFile.mk p b) = l := by
  intro l
  induction l with
  | nil => rfl
  | cons a l ih => simp [ih]

/-! `src/wakatime.ts` / `src/index.ts`: the turn orchestrator.  The
effectful collaborators are abstracted: the parse result and the boolean
answers of the rate limiter (`shouldSendHeartbeat`) and the dependency
resolver (`ensureCliInstalled`) are inputs, and the side effects
(`sendHeartbeat` calls and the rate-limit state update) are the emitted
trace. -/

/-- The parsed notification (`CodexNotification` in `types.ts`). -/
structure CodexNotification where
  type : String
  threadId : String
  turnId : String
  cwd : String
  inputMessages : List String
  lastAssistantMessage : Option String
deriving DecidableEq

/-- `HeartbeatParams.entityType`. -/
inductive EntityType
  | file
  | app
deriving DecidableEq

/-- `HeartbeatParams` from `types.ts`; optional fields are `Option`. -/
structure HeartbeatParams where
  entity : String
  entityType : EntityType
  category : Option String
  projectFolder : Option String
  project : Option String
  lineChanges : Option Nat
  isWrite : Option Bool
deriving DecidableEq

/-- An observable action of one turn: a dispatch attempt
(`sendHeartbeat`) or the rate-limit state update (`updateLastHeartbeat`). -/
inductive TurnEvent
  | dispatch (hb : HeartbeatParams)
  | updateState
deriving DecidableEq

/-- Is the event a dispatch attempt? -/
def isDispatch : TurnEvent → Bool
  | TurnEvent.dispatch _ => true
  | TurnEvent.updateState => false

/-- The environment of one invocation: the parse result of the CLI
argument (`none` for a missing, flag-like or malformed argument) and the
gate answers. -/
structure TurnEnv where
  notification : Option CodexNotification
  rateLimitDue : Bool
  cliAvailable : Bool

/-- The decision pipeline of `main` (after the install/uninstall flag
handling): gate checks in source order, then per-file dispatches or the
single project-level fallback, then the state update. -/
def runTurn (env : TurnEnv) : List TurnEvent :=
  match env.notification with
  | none => []
  | some n =>
    if n.type ≠ "agent-turn-complete" then []
    else if !env.rateLimitDue then []
    else if !env.cliAvailable then []
    else
      let assistantMessage := n.lastAssistantMessage.getD ""
      let files := extractFiles (some assistantMessage) n.cwd
      let dispatches :=
        if files.length > 0 then
          files.map (fun f => TurnEvent.dispatch
            (HeartbeatParams.mk f.path EntityType.file (some "ai coding")
              (some n.cwd) none none (some f.isWrite)))
        else
          [TurnEvent.dispatch
            (HeartbeatParams.mk n.cwd EntityType.app (some "ai coding")
              none (some (pathBasename n.cwd)) none none)]
      dispatches ++ [TurnEvent.updateState]

/-- Modelled from the spec: the rate limiter (`shouldSendHeartbeat` in
`src/state.ts`) is not among the provided sources, only its caller is.
Per section 4.2 of the specification, `isDue` is true when no prior
timestamp is recorded, or when `now - lastHeartbeatAt` is at least 60
seconds; times are in seconds. -/
def isDue (lastHeartbeatAt : Option Int) (now : Int) : Bool :=
  match lastHeartbeatAt with
  | none => true
  | some t => decide (now - t ≥ 60)

/-! Shape lemmas for matcher outcomes, used to characterize what the
backtick signal class can capture. -/

/-- An outcome of `mChar` is one character of the class. -/
theorem mem_mChar_elim {p : Char → Bool} {s t r : List Char}
    (h : (t, r) ∈ mChar p s) : ∃ c, t = [c] ∧ p c = true := by
  match s with
  | [] => simp [mChar] at h
  | c :: cs =>
    by_cases hc : p c = true
    · simp [mChar, hc] at h
      exact ⟨c, by simp [h.1], hc⟩
    · simp only [Bool.not_eq_true] at hc
      simp [mChar, hc] at h

/-- An outcome of `mSeq` splits into outcomes of the parts. -/
theorem mem_mSeq_elim {m1 m2 : Matcher} {s t r : List Char}
    (h : (t, r) ∈ mSeq m1 m2 s) :
    ∃ t1 r1 t2, (t1, r1) ∈ m1 s ∧ (t2, r) ∈ m2 r1 ∧ t = t1 ++ t2 := by
  simp only [mSeq, List.mem_flatMap, List.mem_map] at h
  obtain ⟨a, ha, b, hb, heq⟩ := h
  have ht : t = a.1 ++ b.1 := by
    have := congrArg Prod.fst heq
    simpa using this.symm
  have hr : r = b.2 := by
    have := congrArg Prod.snd heq
    simpa using this.symm
  refine ⟨a.1, a.2, b.1, by simpa using ha, ?_, ht⟩
  rw [hr]
  simpa using hb

/-- Membership in `descRange` bounds the count. -/
theorem mem_descRange {n lo k : Nat} (h : k ∈ descRange n lo) :
    lo ≤ k ∧ k ≤ n := by
  simp only [descRange, List.mem_map, List.mem_range] at h
  obtain ⟨i, hi, rfl⟩ := h
  omega

/-- A member of a `take` is a member of the list. -/
theorem mem_of_mem_take {α : Type} {a : α} : ∀ {n : Nat} {l : List α},
    a ∈ l.take n → a ∈ l := by
  intro n
  induction n with
  | zero => intro l h; simp at h
  | succ n ih =>
    intro l h
    match l with
    | [] => simp at h
    | b :: bs =>
      rcases List.mem_cons.1 h with h1 | h1
      · exact h1 ▸ List.mem_cons_self b bs
      · exact List.mem_cons_of_mem b (ih h1)

/-- A member of a `takeWhile` satisfies the predicate. -/
theorem mem_takeWhile_sat {p : Char → Bool} {c : Char} : ∀ {l : List Char},
    c ∈ l.takeWhile p → p c = true := by
  intro l
  induction l with
  | nil => intro h; simp at h
  | cons a l ih =>
    intro h
    by_cases ha : p a = true
    · rw [List.takeWhile_cons_of_pos ha] at h
      rcases List.mem_cons.1 h with h1 | h1
      · exact h1 ▸ ha
      · exact ih h1
    · simp only [Bool.not_eq_true] at ha
      rw [List.takeWhile_cons_of_neg (by simp [ha])] at h
      simp at h

/-- An outcome of a greedy repetition: length bounds and class membership. -/
theorem mem_mRepGreedy_elim {p : Char → Bool} {lo : Nat} {hi : Option Nat}
    {s t r : List Char} (h : (t, r) ∈ mRepGreedy p lo hi s) :
    lo ≤ t.length ∧ (∀ h2, hi = some h2 → t.length ≤ h2) ∧
      ∀ c ∈ t, p c = true := by
  simp only [mRepGreedy, List.mem_map] at h
  obtain ⟨k, hk, heq⟩ := h
  have ht : t = (s.takeWhile p).take k := by
    have := congrArg Prod.fst heq
    simpa using this.symm
  have hmem : ∀ c ∈ t, p c = true := by
    intro c hc
    rw [ht] at hc
    exact mem_takeWhile_sat (mem_of_mem_take hc)
  cases hi with
  | none =>
    have hkb := mem_descRange hk
    have h2 : k ≤ (s.takeWhile p).length := by simpa using hkb.2
    have hlen : t.length = k := by
      rw [ht, List.length_take]
      omega
    refine ⟨by omega, ?_, hmem⟩
    intro x hx
    exact absurd hx (by simp)
  | some hbound =>
    have hkb := mem_descRange hk
    have h2 : k ≤ min (s.takeWhile p).length hbound := by simpa using hkb.2
    have h3 : k ≤ (s.takeWhile p).length := le_trans h2 (min_le_left _ _)
    have h4 : k ≤ hbound := le_trans h2 (min_le_right _ _)
    have hlen : t.length = k := by
      rw [ht, List.length_take]
      omega
    refine ⟨by omega, ?_, hmem⟩
    intro x hx
    have : hbound = x := by
      injection hx
    omega

theorem mem_of_head?_eq {α : Type} {l : List α} {a : α}
    (h : l.head? = some a) : a ∈ l := by
  match l with
  | [] => simp at h
  | b :: bs =>
    simp only [List.head?_cons, Option.some.injEq] at h
    rw [← h]
    exact List.mem_cons_self b bs

/-- A successful `matchCapAt` produced its capture as an outcome of the
capture matcher on some suffix. -/
theorem matchCapAt_elim {pre cap post : Matcher} {s t r : List Char}
    (h : matchCapAt pre cap post s = some (t, r)) :
    ∃ s1 r2, (t, r2) ∈ cap s1 := by
  unfold matchCapAt at h
  have hm := mem_of_head?_eq h
  simp only [List.mem_flatMap, List.mem_map] at hm
  obtain ⟨a, ha, b, hb, c, hc, heq⟩ := hm
  have ht : t = b.1 := by
    have := congrArg Prod.fst heq
    simpa using this.symm
  refine ⟨a.2, b.2, ?_⟩
  rw [ht]
  simpa using hb

/-- Every outcome of the shared path capture is a nonempty body, a dot,
and a 1-6 character word extension. -/
theorem pathTailCap_shape {body : Char → Bool} {s t r : List Char}
    (h : (t, r) ∈ pathTailCap body s) :
    ∃ a e : List Char, t = a ++ '.' :: e ∧ a ≠ [] ∧ (∀ c ∈ a, body c = true) ∧
      1 ≤ e.length ∧ e.length ≤ 6 ∧ ∀ c ∈ e, jsWordChar c = true := by
  unfold pathTailCap at h
  obtain ⟨t1, r1, t23, h1, h23, ht⟩ := mem_mSeq_elim h
  obtain ⟨t2, r2, t3, h2, h3, ht23⟩ := mem_mSeq_elim h23
  obtain ⟨hb1, _, hbody⟩ := mem_mRepGreedy_elim h1
  obtain ⟨c, hc, hdot⟩ := mem_mChar_elim h2
  obtain ⟨he1, he2, hword⟩ := mem_mRepGreedy_elim h3
  have hcdot : c = '.' := by
    simpa using hdot
  refine ⟨t1, t3, ?_, ?_, hbody, he1, he2 6 rfl, hword⟩
  · rw [ht, ht23, hc, hcdot]
    simp
  · intro hnil
    rw [hnil] at hb1
    simp at hb1

/-- Every capture a scan emits satisfies any property every capture of
the matcher satisfies. -/
theorem scanFrom_prop {m : List Char → Option (List Char × List Char)}
    {P : List Char → Prop}
    (hm : ∀ s t r, m s = some (t, r) → P t) :
    ∀ (fuel : Nat) (s : List Char) (x : String),
      x ∈ scanFrom m fuel s → ∃ t, x = String.mk t ∧ P t := by
  intro fuel
  induction fuel with
  | zero => intro s x hx; simp [scanFrom] at hx
  | succ fuel ih =>
    intro s x hx
    match s with
    | [] => simp [scanFrom] at hx
    | c :: cs =>
      rw [scanFrom] at hx
      cases hmc : m (c :: cs) with
      | none =>
        rw [hmc] at hx
        exact ih cs x hx
      | some tr =>
        rw [hmc] at hx
        have hP : P tr.1 := hm (c :: cs) tr.1 tr.2 (by rw [hmc])
        by_cases hlt : tr.2.length < cs.length + 1
        · simp only [hlt, if_true] at hx
          rcases List.mem_cons.1 hx with h1 | h1
          · exact ⟨tr.1, h1, hP⟩
          · exact ih tr.2 x h1
        · simp only [hlt, if_false] at hx
          rcases List.mem_cons.1 hx with h1 | h1
          · exact ⟨tr.1, h1, hP⟩
          · exact ih cs x h1

/-! The claims. -/

/-- Claim C2: with a recorded timestamp T, `isDue` is false at T + 59
seconds and true at T + 60 seconds, and with no recorded timestamp it is
always true.  (Rate limiter modelled from the spec; see `isDue`.) -/
theorem c2_rate_limiter_isDue (T : Int) :
    isDue (some T) (T + 59) = false ∧ isDue (some T) (T + 60) = true ∧
    ∀ now : Int, isDue none now = true := by
  refine ⟨?_, ?_, fun now => rfl⟩
  · simp only [isDue, decide_eq_false_iff_not]
    omega
  · simp only [isDue, decide_eq_true_eq]
    omega

/-- Claim C4: `normalizePath` first trims the raw path; an absolute
trimmed path is canonicalized and used as is, a relative one is joined to
`cwd` and canonicalized. -/
theorem c4_normalize_shape (fp cwd : String) :
    normalizePath fp cwd =
      if pathIsAbsolute (jsTrim fp) then pathNormalize (jsTrim fp)
      else pathNormalize (pathJoin cwd (jsTrim fp)) := rfl

/-- Claim C8: both extraction entry points map an absent or empty message
to the empty list (and, being total functions, raise no error). -/
theorem c8_empty_message (cwd : String) :
    extractFiles none cwd = [] ∧ extractFiles (some "") cwd = [] ∧
    extractFilePaths none cwd = [] ∧ extractFilePaths (some "") cwd = [] :=
  ⟨rfl, rfl, rfl, rfl⟩

/-- Claim C3: the validator accepts a raw match only if it is nonempty,
contains no URL scheme marker, none of the characters in the rejected
class, and has a nonempty extension of at most 6 characters; and the
message of concrete scenario 2, whose only path shape is a URL, extracts
to nothing for every working directory. -/
theorem c3_validator_necessary :
    (∀ p : String, isValidFilePath p = true →
      p.length ≠ 0 ∧
      hasSubseq "://".data p.data = false ∧
      p.data.any (fun c => c == '<' || c == '>' || c == '|' || c == '?' || c == '*') = false ∧
      (jsExtLower p).length ≠ 0 ∧ (jsExtLower p).length ≤ 6) ∧
    ∀ cwd : String,
      extractFiles (some "Check https://example.com/file.ts for reference.") cwd = [] := by
  constructor
  · intro p h
    simp only [isValidFilePath] at h
    split at h
    · exact absurd h (by simp)
    · rename_i h1
      split at h
      · exact absurd h (by simp)
      · rename_i h2
        split at h
        · exact absurd h (by simp)
        · rename_i h3
          split at h
          · exact absurd h (by simp)
          · rename_i h4
            split at h
            · exact absurd h (by simp)
            · rename_i h5
              simp only [Bool.not_eq_true, Bool.or_eq_false_iff, beq_eq_false_iff_ne,
                ne_eq] at h1 h2 h3 h4 h5
              refine ⟨h1, h2.2, h3, h4, by omega⟩
  · intro cwd
    rw [extractFiles_decomp]
    have h1 : scanMatches matchWriteVerbAt
        "Check https://example.com/file.ts for reference." = [] := by decide
    have h2 : scanMatches matchBlockAt
        "Check https://example.com/file.ts for reference." = [] := by decide
    have h3 : scanMatches matchTickAt
        "Check https://example.com/file.ts for reference." = [] := by decide
    have h4 : scanMatches matchQuoteAt
        "Check https://example.com/file.ts for reference." = [] := by decide
    have h5 : scanMatches matchReadVerbAt
        "Check https://example.com/file.ts for reference." = [] := by decide
    simp [writePaths, readPaths, READ_MATCHERS, h1, h2, h3, h4, h5, newKeys]

/-- Claim C3, witness: the validator conditions at the accepted path
`a.ts`, and the URL-only message extracting to nothing at `/p`. -/
theorem c3_validator_witness :
    (("a.ts" : String).length ≠ 0 ∧
      hasSubseq "://".data ("a.ts" : String).data = false ∧
      ("a.ts" : String).data.any
        (fun c => c == '<' || c == '>' || c == '|' || c == '?' || c == '*') = false ∧
      (jsExtLower "a.ts").length ≠ 0 ∧ (jsExtLower "a.ts").length ≤ 6) ∧
    extractFiles (some "Check https://example.com/file.ts for reference.") "/p" = [] :=
  ⟨c3_validator_necessary.1 "a.ts" (by decide), c3_validator_necessary.2 "/p"⟩

/-- Claim C5: the extraction result is the write-pass paths (first
occurrence each, in match order, marked write) followed by the read-pass
paths not already recorded (first occurrence each, marked read), and it
holds at most one record per distinct normalized path. -/
theorem c5_output_order_dedup (msg cwd : String) :
    extractFiles (some msg) cwd =
      (newKeys [] (writePaths msg cwd)).map (fun p => ExtractedFile.mk p true)
      ++ (newKeys (newKeys [] (writePaths msg cwd)) (readPaths msg cwd)).map
          (fun p => ExtractedFile.mk p false) ∧
    ((extractFiles (some msg) cwd).map ExtractedFile.path).Nodup := by
  refine ⟨extractFiles_decomp msg cwd, ?_⟩
  rw [extractFiles_decomp]
  simp only [List.map_append, List.map_map, map_path_pair]
  exact nodup_append_newKeys (readPaths msg cwd) (newKeys [] (writePaths msg cwd))
    (nodup_newKeys_nil _)

/-- Claim C1: a path matched by the write-verb pattern and by any
read-oriented pattern, in either order, yields exactly one record, with
the write flag set. -/
theorem c1_write_wins (msg cwd p : String)
    (hw : p ∈ writePaths msg cwd) (hr : p ∈ readPaths msg cwd) :
    (extractFiles (some msg) cwd).filter (fun f => f.path == p)
      = [ExtractedFile.mk p true] := by
  have hW : p ∈ newKeys [] (writePaths msg cwd) :=
    (mem_newKeys _ _ _).2 ⟨hw, by simp⟩
  have hR : p ∉ newKeys (newKeys [] (writePaths msg cwd)) (readPaths msg cwd) := by
    rw [mem_newKeys]
    rintro ⟨_, hc⟩
    exact hc hW
  rw [extractFiles_decomp]
  rw [List.filter_append]
  rw [filter_over_map (fun p => ExtractedFile.mk p true) (fun f => f.path == p)]
  rw [filter_over_map (fun p => ExtractedFile.mk p false) (fun f => f.path == p)]
  have h1 : (newKeys [] (writePaths msg cwd)).filter
      (fun a => (ExtractedFile.mk a true).path == p) = [p] :=
    filter_eq_single p _ (nodup_newKeys_nil _) hW
  have h2 : (newKeys (newKeys [] (writePaths msg cwd)) (readPaths msg cwd)).filter
      (fun a => (ExtractedFile.mk a false).path == p) = [] :=
    filter_eq_nil_of_not_mem p _ hR
  rw [h1, h2]
  simp

/-- Claim C1, witness: the path `a.ts` is both modified and read in the
message, and the single resulting record is a write. -/
theorem c1_write_wins_witness :
    ("/p/a.ts" ∈ writePaths "Modified `a.ts`. Read `a.ts`." "/p") ∧
    ("/p/a.ts" ∈ readPaths "Modified `a.ts`. Read `a.ts`." "/p") ∧
    (extractFiles (some "Modified `a.ts`. Read `a.ts`.") "/p").filter
      (fun f => f.path == "/p/a.ts") = [ExtractedFile.mk "/p/a.ts" true] :=
  ⟨by decide, by decide, c1_write_wins _ _ _ (by decide) (by decide)⟩

/-- Claim C6: a processed agent-turn-complete notification whose message
extracts to nothing issues exactly one dispatch, the project-level
(`app`) heartbeat for the working directory, named by its basename. -/
theorem c6_empty_extraction_fallback (env : TurnEnv) (n : CodexNotification)
    (h1 : env.notification = some n)
    (h2 : n.type = "agent-turn-complete")
    (h3 : env.rateLimitDue = true)
    (h4 : env.cliAvailable = true)
    (h5 : extractFiles (some (n.lastAssistantMessage.getD "")) n.cwd = []) :
    (runTurn env).filter isDispatch =
      [TurnEvent.dispatch (HeartbeatParams.mk n.cwd EntityType.app (some "ai coding")
        none (some (pathBasename n.cwd)) none none)] := by
  simp [runTurn, h1, h2, h3, h4, h5, isDispatch]

/-- Claim C6, witness: a due, fully available turn for `/p` with no
assistant message dispatches the single app heartbeat for `/p`. -/
theorem c6_empty_extraction_witness :
    (runTurn (TurnEnv.mk
        (some (CodexNotification.mk "agent-turn-complete" "t" "u" "/p" [] none))
        true true)).filter isDispatch =
      [TurnEvent.dispatch (HeartbeatParams.mk "/p" EntityType.app (some "ai coding")
        none (some (pathBasename "/p")) none none)] :=
  c6_empty_extraction_fallback
    (TurnEnv.mk (some (CodexNotification.mk "agent-turn-complete" "t" "u" "/p" [] none))
      true true)
    (CodexNotification.mk "agent-turn-complete" "t" "u" "/p" [] none)
    rfl rfl rfl rfl rfl

/-- Claim C7: a turn that fails a gate (missing or wrong notification
type, rate limiter not due, dependency unavailable) emits nothing, and
every other turn emits one or more dispatch attempts followed by exactly
one state update — the update never happens before a dispatch attempt. -/
theorem c7_update_only_after_dispatch (env : TurnEnv) :
    ((env.notification = none ∨
      (∀ n, env.notification = some n → n.type ≠ "agent-turn-complete") ∨
      env.rateLimitDue = false ∨ env.cliAvailable = false) → runTurn env = []) ∧
    (runTurn env = [] ∨ ∃ hbs : List HeartbeatParams, hbs ≠ [] ∧
      runTurn env = hbs.map TurnEvent.dispatch ++ [TurnEvent.updateState]) := by
  cases hn : env.notification with
  | none =>
    refine ⟨fun _ => ?_, Or.inl ?_⟩ <;> simp [runTurn, hn]
  | some n =>
    by_cases ht : n.type = "agent-turn-complete"
    · by_cases hd : env.rateLimitDue = true
      · by_cases hc : env.cliAvailable = true
        · constructor
          · rintro (hg | hg | hg | hg)
            · exact absurd hg (by simp)
            · exact absurd ht (hg n rfl)
            · rw [hd] at hg
              exact absurd hg (by simp)
            · rw [hc] at hg
              exact absurd hg (by simp)
          · right
            by_cases hf :
                (extractFiles (some (n.lastAssistantMessage.getD "")) n.cwd).length > 0
            · refine ⟨(extractFiles (some (n.lastAssistantMessage.getD "")) n.cwd).map
                (fun f => HeartbeatParams.mk f.path EntityType.file (some "ai coding")
                  (some n.cwd) none none (some f.isWrite)), ?_, ?_⟩
              · simp only [ne_eq, List.map_eq_nil_iff]
                intro hnil
                rw [hnil] at hf
                simp at hf
              · simp [runTurn, hn, ht, hd, hc, hf, List.map_map]
            · refine ⟨[HeartbeatParams.mk n.cwd EntityType.app (some "ai coding")
                none (some (pathBasename n.cwd)) none none], by simp, ?_⟩
              simp [runTurn, hn, ht, hd, hc, hf]
        · have hc2 : env.cliAvailable = false := by
            simp only [Bool.not_eq_true] at hc
            exact hc
          refine ⟨fun _ => ?_, Or.inl ?_⟩ <;> simp [runTurn, hn, ht, hd, hc2]
      · have hd2 : env.rateLimitDue = false := by
          simp only [Bool.not_eq_true] at hd
          exact hd
        refine ⟨fun _ => ?_, Or.inl ?_⟩ <;> simp [runTurn, hn, ht, hd2]
    · refine ⟨fun _ => ?_, Or.inl ?_⟩ <;> simp [runTurn, hn, ht]

/-- Claim C7, witness: a turn with no valid notification emits nothing. -/
theorem c7_update_only_after_dispatch_witness :
    runTurn (TurnEnv.mk none true true) = [] :=
  (c7_update_only_after_dispatch (TurnEnv.mk none true true)).1 (Or.inl rfl)

/-- Claim C9, counterexample: the backtick signal class accepts `a.b2`,
whose extension `b2` contains the non-alphabetic character `2` — the
extension constraint is word characters, not alphabetic ones. -/
theorem c9_counterexample :
    scanMatches matchTickAt "`a.b2`" = ["a.b2"] ∧
    isValidFilePath "a.b2" = true ∧
    extractFiles (some "`a.b2`") "/p" = [ExtractedFile.mk "/p/a.b2" false] ∧
    jsExtLower "a.b2" = "b2" ∧
    ('2' ∈ ("b2" : String).data ∧ Char.isAlpha '2' = false) := by
  refine ⟨by decide, by decide, by decide, by decide, by decide, by decide⟩

/-- Claim C9 as amended: every path captured by the single-backtick
signal class ends in a dot followed by an extension of 1 to 6 word
characters (letters, digits or underscore) — not necessarily alphabetic
ones. -/
theorem c9_tick_extension_word (msg cap : String)
    (h : cap ∈ scanMatches matchTickAt msg) :
    ∃ a e : List Char, cap.data = a ++ '.' :: e ∧ a ≠ [] ∧
      1 ≤ e.length ∧ e.length ≤ 6 ∧ ∀ c ∈ e, jsWordChar c = true := by
  have hm : ∀ s t r, matchTickAt s = some (t, r) →
      ∃ a e : List Char, t = a ++ '.' :: e ∧ a ≠ [] ∧ 1 ≤ e.length ∧
        e.length ≤ 6 ∧ ∀ c ∈ e, jsWordChar c = true := by
    intro s t r hmt
    obtain ⟨s1, r2, hcap⟩ := matchCapAt_elim hmt
    obtain ⟨a, e, he1, he2, _, he4, he5, he6⟩ := pathTailCap_shape hcap
    exact ⟨a, e, he1, he2, he4, he5, he6⟩
  obtain ⟨t, hx, hp⟩ := scanFrom_prop hm _ _ cap h
  subst hx
  exact hp

/-- Claim C9 as amended, witness: the capture `a.ts` of the backtick
class decomposes into a nonempty stem and the word extension `ts`. -/
theorem c9_tick_extension_word_witness :
    ∃ a e : List Char, ("a.ts" : String).data = a ++ '.' :: e ∧ a ≠ [] ∧
      1 ≤ e.length ∧ e.length ≤ 6 ∧ ∀ c ∈ e, jsWordChar c = true :=
  c9_tick_extension_word "`a.ts`" "a.ts" (by decide)

/-- Claim C10, counterexample: on the message where a write-verb phrase
starts inside the span of the combined-pattern read-verb match, the two
entry points disagree — `extractFiles` also finds `/p/y.ts`. -/
theorem c10_counterexample :
    extractFilePaths (some "Read a.Create y.ts") "/p" = ["/p/a.Create"] ∧
    (extractFiles (some "Read a.Create y.ts") "/p").map ExtractedFile.path
      = ["/p/y.ts", "/p/a.Create"] ∧
    ¬(∀ p : String, p ∈ extractFilePaths (some "Read a.Create y.ts") "/p" ↔
        p ∈ (extractFiles (some "Read a.Create y.ts") "/p").map ExtractedFile.path) := by
  refine ⟨by decide, by decide, fun hall => ?_⟩
  have h := (hall "/p/y.ts").2 (by decide)
  exact absurd h (by decide)

/-- Claim C10 as amended: on messages where none of the action-verb
patterns (combined, read, write) match, the legacy entry point and the
write-detecting entry point recognize exactly the same normalized paths;
in general the sets can differ (see the counterexample). -/
theorem c10_same_paths_no_verbs (msg cwd : String)
    (h1 : scanMatches matchLegacyVerbAt msg = [])
    (h2 : scanMatches matchReadVerbAt msg = [])
    (h3 : scanMatches matchWriteVerbAt msg = []) :
    ∀ p : String, p ∈ extractFilePaths (some msg) cwd ↔
      p ∈ (extractFiles (some msg) cwd).map ExtractedFile.path := by
  intro p
  have hw : writePaths msg cwd = [] := by
    simp [writePaths, h3]
  rw [extractFilePaths_decomp, extractFiles_decomp, hw]
  simp [mem_newKeys, legacyPaths, readPaths, LEGACY_MATCHERS, READ_MATCHERS,
    h1, h2, newKeys, List.mem_append, map_path_pair, List.map_append, List.map_map]

/-- Claim C10 as amended, witness: on a backtick-only message the two
entry points agree on the path `/p/a.ts`. -/
theorem c10_same_paths_no_verbs_witness :
    "/p/a.ts" ∈ extractFilePaths (some "`a.ts`") "/p" ↔
      "/p/a.ts" ∈ (extractFiles (some "`a.ts`") "/p").map ExtractedFile.path :=
  c10_same_paths_no_verbs "`a.ts`" "/p" (by decide) (by decide) (by decide) "/p/a.ts"

end CodexWakatime
